import Mathlib

/-!
Verification of the evaluation harness in `open_flamingo/eval/evaluate.py`.

The file embeds the data model and the operations of the harness as
executable Lean definitions, translated from the Python source, and proves
the specified properties about them.  External collaborators (the numpy /
python pseudo-random generators, the model wrapper's prompt templates) are
represented as explicit parameters or, where the specification fixes their
shape, as definitions modelled from the specification text.
-/

namespace OpenFlamingoEval

/-! ## Pseudo-random generator interface

`np.random.seed` / `np.random.choice` / `random.randint` are external
library calls (spec section 6).  They are modelled by an explicit generator
record: `seedFn s` is the state installed by `np.random.seed(s)` (it
discards the prior state), and `next` is one deterministic state
transition producing a raw draw.  All theorems about reseeding hold for
every such generator; a small concrete linear-congruential instance `lcg`
is provided for evaluating the definitions on concrete inputs. -/

structure PRNG (σ : Type) where
  seedFn : Nat → σ
  next : σ → Nat × σ

/-- Concrete generator instance used for concrete evaluations. -/
def lcg : PRNG Nat where
  seedFn s := s % 2147483648
  next s :=
    let t := (s * 1103515245 + 12345) % 2147483648
    (t, t)

/-- Core of `np.random.choice(n, k, replace=False)`: draw `k` entries
without replacement from the remaining candidate list, consuming generator
state for every pick. -/
def chooseAux {σ : Type} (R : PRNG σ) : Nat → List Nat → σ → List Nat × σ
  | 0, _, g => ([], g)
  | _ + 1, [], g => ([], g)
  | k + 1, x :: xs, g =>
    let r := R.next g
    let i := r.1 % (x :: xs).length
    let rest := chooseAux R k ((x :: xs).eraseIdx i) r.2
    ((x :: xs).getD i 0 :: rest.1, rest.2)

/-- `np.random.choice(n, k, replace=False)`: `k` distinct indices below
`n`, drawn from the current generator state. -/
def np_choice {σ : Type} (R : PRNG σ) (n k : Nat) (g : σ) : List Nat × σ :=
  chooseAux R k (List.range n) g

/-- `get_random_indices(num_samples, query_set_size, full_dataset, seed)`
(evaluate.py, lines 333-344): checks the size bound, reseeds with `seed`,
then draws `num_samples + query_set_size` indices without replacement in a
single combined draw.  The `ValueError` raise is modelled as `none`. -/
def get_random_indices {σ : Type} (R : PRNG σ) (numSamples querySetSize dsLen seed : Nat) :
    Option (List Nat × σ) :=
  if numSamples + querySetSize > dsLen then none
  else some (np_choice R dsLen (numSamples + querySetSize) (R.seedFn seed))

/-- `get_query_set(train_dataset, query_set_size, seed)` (evaluate.py,
lines 347-350): `np.random.seed(seed)` followed by
`np.random.choice(len(train_dataset), query_set_size, replace=False)`.
The prior generator state `g` is discarded by the reseed.  Returns the
drawn index sequence and the generator state after the draw. -/
def get_query_set {σ : Type} (R : PRNG σ) (trainLen querySetSize seed : Nat) (_g : σ) :
    List Nat × σ :=
  np_choice R trainLen querySetSize (R.seedFn seed)

/-- `prepare_eval_samples(test_dataset, num_samples, seed)` (evaluate.py,
lines 353-356): `np.random.seed(seed)` followed by
`np.random.choice(len(test_dataset), num_samples, replace=False)`. -/
def prepare_eval_samples {σ : Type} (R : PRNG σ) (testLen numSamples seed : Nat) (_g : σ) :
    List Nat × σ :=
  np_choice R testLen numSamples (R.seedFn seed)

/-- The `random.randint(0, 1000000)` draws used in `main` (evaluate.py,
lines 220-225) to generate fresh trial seeds: `n` successive draws from
the process-wide generator. -/
def randint_draws {σ : Type} (R : PRNG σ) : Nat → σ → List Nat × σ
  | 0, g => ([], g)
  | n + 1, g =>
    let r := R.next g
    let rest := randint_draws R n r.2
    (r.1 % 1000001 :: rest.1, rest.2)

/-- Trial-seed handling in `main` (evaluate.py, lines 215-226): when fewer
seeds than trials are provided, append freshly generated seeds up to the
trial count and report the extension (the `print` calls are modelled by
the returned flag `true`); otherwise the list is returned unchanged and
nothing is reported. -/
def extend_trial_seeds {σ : Type} (R : PRNG σ) (seeds : List Nat) (numTrials : Nat) (g : σ) :
    (List Nat × Bool) × σ :=
  if seeds.length < numTrials then
    let d := randint_draws R (numTrials - seeds.length) g
    ((seeds ++ d.1, true), d.2)
  else ((seeds, false), g)

/-- The per-shot trial iteration of the orchestrator (evaluate.py, e.g.
line 310): `zip(args.trial_seeds, range(args.num_trials))`. -/
def trial_pairs (seeds : List Nat) (numTrials : Nat) : List (Nat × Nat) :=
  seeds.zip (List.range numTrials)

/-! ## Likelihood classification path: token alignment and scoring

`find_sub_list(sl, l)` (evaluate.py, lines 651-657) collects, for every
index `ind` whose element equals `sl[0]` and where the slice
`l[ind:ind+len(sl)]` equals `sl`, the value `ind + len(sl) - 1`, i.e. the
index of the final token of that occurrence. -/

/-- `sl` occurs in `l` as a contiguous subsequence starting at `i`
(`l[i:i+len(sl)] == sl`). -/
def isMatchAt (sl l : List Int) (i : Nat) : Prop :=
  (l.drop i).take sl.length = sl

instance (sl l : List Int) (i : Nat) : Decidable (isMatchAt sl l i) :=
  inferInstanceAs (Decidable ((l.drop i).take sl.length = sl))

/-- `find_sub_list(sl, l)` (evaluate.py, lines 651-657). -/
def find_sub_list (sl l : List Int) : List Nat :=
  (List.range l.length).filterMap fun ind =>
    if l.getD ind 0 = sl.headD 0 ∧ (l.drop ind).take sl.length = sl then
      some (ind + sl.length - 1)
    else none

/-- The per-candidate scoring step of `evaluate_imagenet` (evaluate.py,
lines 757-763) for one input sentence: locate the prompt occurrence with
`find_sub_list`, slice `input_probs[idxes[-1] + 1:]` and multiply the
remaining teacher-forced token probabilities (`torch.prod`).  When
`find_sub_list` returns no match, `idxes[-1]` raises `IndexError` in the
source; that failure is modelled by `none`. -/
def candidate_score (promptTokens inputIds : List Int) (genProbs : List ℚ) : Option ℚ :=
  (find_sub_list promptTokens inputIds).getLast?.map fun j => (genProbs.drop (j + 1)).prod

/-- `np.argsort(...)` over candidate scores (ascending), modelled by a
stable sort of the index range by score. -/
def argsortAsc (xs : List ℚ) : List Nat :=
  List.insertionSort (fun i j => xs.getD i 0 ≤ xs.getD j 0) (List.range xs.length)

/-- `np.argsort(...)[::-1]` (evaluate.py, line 768): candidate indices in
descending score order. -/
def argsortDesc (xs : List ℚ) : List Nat := (argsortAsc xs).reverse

/-- `top5 = [IMAGENET_1K_CLASS_ID_TO_LABEL[pred] for pred in
np.argsort(...)[::-1][:5]]` (evaluate.py, lines 766-769). -/
def imagenet_top5 (labels : Nat → String) (scores : List ℚ) : List String :=
  ((argsortDesc scores).take 5).map labels

/-! ## ImageNet evaluation loop (evaluate.py, lines 660-782) -/

/-- Main loop of `evaluate_imagenet` (evaluate.py, lines 701-780),
abstracted over the model: `oracle ctx item` stands for the top-5 label
list that the candidate-scoring block (lines 730-769, i.e.
`imagenet_top5` over `candidate_score` values) produces for validation
item `item` under demonstration indices `ctx`; its content is irrelevant
to the accounting proved here.  Per item the loop draws
`np.random.choice(len(train_dataset), effective_num_shots,
replace=False)` from the current (non-reseeded) generator state, updates
`acc1`/`acc5` (in the source `top5` has 1000-candidate origin and is
nonempty, so `top5[0]` is modelled by `head?`), and breaks once
`i >= num_samples - 1`. -/
def imagenet_loop {σ : Type} (R : PRNG σ) (oracle : List Nat → String → List String)
    (trainLen effShots numSamples : Nat) :
    List String → Nat → Nat → Nat → σ → Nat × Nat
  | [], _, acc1, acc5, _ => (acc1, acc5)
  | item :: rest, i, acc1, acc5, g =>
    let c := np_choice R trainLen effShots g
    let top5 := oracle c.1 item
    let acc1' := if top5.head? = some item then acc1 + 1 else acc1
    let acc5' := if item ∈ top5 then acc5 + 1 else acc5
    if numSamples ≤ i + 1 then (acc1', acc5')
    else imagenet_loop R oracle trainLen effShots numSamples rest (i + 1) acc1' acc5' c.2

/-- Top-1 correct count over a list of validation items along the same
generator thread as `imagenet_loop` (one demonstration draw per item). -/
def count_correct {σ : Type} (R : PRNG σ) (oracle : List Nat → String → List String)
    (trainLen effShots : Nat) : List String → σ → Nat
  | [], _ => 0
  | item :: rest, g =>
    let c := np_choice R trainLen effShots g
    (if (oracle c.1 item).head? = some item then 1 else 0) +
      count_correct R oracle trainLen effShots rest c.2

/-- `evaluate_imagenet(eval_model, batch_size, imagenet_root, seed,
num_samples, num_shots)` (evaluate.py, lines 660-782), with the datasets
and the model abstracted: `val` lists the validation items' class names in
iteration order, `trainLen` is the training-set size, and `g` is the state
of the process-wide generator at entry.  The `batch_size` and `seed`
parameters are accepted and, as in the source, never used by the body.
Returns `float(acc1) / num_samples`; `none` models the
`ZeroDivisionError` when `num_samples` is zero. -/
def evaluate_imagenet {σ : Type} (R : PRNG σ) (oracle : List Nat → String → List String)
    (batch_size : Nat) (trainLen : Nat) (val : List String)
    (seed : Nat) (num_samples : Nat) (num_shots : Nat) (g : σ) : Option ℚ :=
  let effShots := if 0 < num_shots then num_shots else 2
  let r := imagenet_loop R oracle trainLen effShots num_samples val 0 0 0 g
  if num_samples = 0 then none else some ((r.1 : ℚ) / (num_samples : ℚ))

/-! ## Prediction records (evaluate.py, lines 430/479-482 and 573/624-629) -/

/-- Python-dict write `predictions[k] = v` (evaluate_captioning, lines
479-482): update in place when the key is present, append otherwise. -/
def dictInsert (m : List (Nat × String)) (k : Nat) (v : String) : List (Nat × String) :=
  if m.any (fun p => decide (p.1 = k)) then
    m.map (fun p => if p.1 = k then (k, v) else p)
  else m ++ [(k, v)]

/-- Dict lookup `predictions[k]`. -/
def dictGet (m : List (Nat × String)) (k : Nat) : Option String :=
  (m.find? (fun p => decide (p.1 = k))).map Prod.snd

/-- The captioning Prediction-Record accumulation (evaluate.py, line 430
`predictions = defaultdict()` and lines 479-482): one dict write per
processed item, batches in order, keyed by `sample["image_id"]`. -/
def captioning_predictions (batches : List (List (Nat × String))) : List (Nat × String) :=
  batches.foldl (fun preds batch => batch.foldl (fun m s => dictInsert m s.1 s.2) preds) []

/-- The VQA Prediction-Record accumulation (evaluate.py, line 573
`predictions = []` and lines 624-629 `predictions.extend(...)`): one
`(answer, question_id)` record appended per item, batches in order. -/
def vqa_predictions (batches : List (List (String × Nat))) : List (String × Nat) :=
  batches.foldl (fun preds batch => preds ++ batch) []

/-! ## Prompt assembly, captioning path (evaluate.py, lines 443-463)

Text is handled at the character-list level (Python `str` values are
character sequences).  The prompt template comes from the external model
wrapper and is modelled from the specification; everything else is
translated from `evaluate_captioning`. -/

/-- The image-placeholder token. -/
def imgTag : List Char := ['<', 'i', 'm', 'a', 'g', 'e', '>']

/-- The end-of-example marker. -/
def endChunk : List Char :=
  ['<', '|', 'e', 'n', 'd', 'o', 'f', 'c', 'h', 'u', 'n', 'k', '|', '>']

/-- The caption-template connective text. -/
def outputColon : List Char := ['O', 'u', 't', 'p', 'u', 't', ':']

/-- Modelled from the spec: the external model wrapper's captioning
template `eval_model.caption_prompt` (defined in
`open_flamingo/eval/models/open_flamingo.py`, which is not among the
sources).  Per spec section 4.3 the template embeds the image-placeholder
token, the reference text and an end-of-example marker; the query form
(no caption yet) is the template with the answer portion omitted. -/
def caption_prompt : Option (List Char) → List Char
  | some c => imgTag ++ (outputColon ++ (c ++ endChunk))
  | none => imgTag ++ outputColon

/-- `x["caption"].strip()` (evaluate.py, line 454): Python whitespace
strip on both ends. -/
def pyStrip (s : List Char) : List Char :=
  ((s.dropWhile Char.isWhitespace).reverse.dropWhile Char.isWhitespace).reverse

/-- One demonstration sample as consumed by the captioning assembly. -/
structure DemoSample where
  image : Nat
  caption : List Char

/-- Fuel-driven core of Python `str.replace(pat, "")`: left-to-right
non-overlapping removal of `pat`.  The fuel only bounds recursion depth;
`stripSub` supplies enough for the whole string. -/
def stripSubFuel (pat : List Char) : Nat → List Char → List Char
  | 0, s => s
  | _ + 1, [] => []
  | fuel + 1, c :: rest =>
    if pat ≠ [] ∧ pat.isPrefixOf (c :: rest) then
      stripSubFuel pat fuel ((c :: rest).drop pat.length)
    else c :: stripSubFuel pat fuel rest

/-- `context_text.replace("<image>", "")` (evaluate.py, line 461) for a
general pattern: remove every left-to-right non-overlapping occurrence. -/
def stripSub (pat s : List Char) : List Char := stripSubFuel pat s.length s

/-- Number of positions at which `pat` occurs in `s` (used to count
image-placeholder occurrences; the zero/one assertions proved below do
not depend on the overlap convention). -/
def countSub (pat : List Char) : List Char → Nat
  | [] => 0
  | c :: rest => (if pat.isPrefixOf (c :: rest) then 1 else 0) + countSub pat rest

/-- Image sequence for one captioning batch item (evaluate.py, lines
446-450): demonstration images only when the originally requested shot
count is positive, then the query image. -/
def captioning_prompt_images (num_shots : Nat) (demos : List DemoSample)
    (queryImage : Nat) : List Nat :=
  (if 0 < num_shots then demos.map DemoSample.image else []) ++ [queryImage]

/-- Concatenated demonstration context text (evaluate.py, lines 452-457):
one filled caption template per demonstration, captions stripped. -/
def captioning_context_text (demos : List DemoSample) : List Char :=
  (demos.map fun d => caption_prompt (some (pyStrip d.caption))).flatten

/-- Full prompt text for one batch item (evaluate.py, lines 459-463): in
the zero-shot case the image tags are removed from the demonstration
context only, then the query template is appended. -/
def captioning_prompt_text (num_shots : Nat) (demos : List DemoSample) : List Char :=
  (if num_shots = 0 then stripSub imgTag (captioning_context_text demos)
   else captioning_context_text demos) ++ caption_prompt none

/-! ### Placeholder-occurrence invariants

`invB s`: every occurrence of the placeholder's opening character in `s`
starts either a full image tag or the end-marker opening `<|`.
`outB s`: every such occurrence starts `<|`.  Stripping the image tags
turns the first property into the second, and the second rules out any
remaining image-tag occurrence. -/

def invB : List Char → Bool
  | [] => true
  | c :: rest =>
    (decide (c ≠ '<') || imgTag.isPrefixOf (c :: rest) ||
      ['<', '|'].isPrefixOf (c :: rest)) && invB rest

def outB : List Char → Bool
  | [] => true
  | c :: rest =>
    (decide (c ≠ '<') || ['<', '|'].isPrefixOf (c :: rest)) && outB rest

/-! ### Lemmas about the sampler -/

theorem perm_getD_cons_eraseIdx : ∀ (l : List Nat) (i : Nat), i < l.length →
    l.Perm (l.getD i 0 :: l.eraseIdx i)
  | x :: xs, 0, _ => by simp
  | x :: xs, j + 1, h => by
    have hj : j < xs.length := Nat.lt_of_succ_lt_succ h
    have ih := perm_getD_cons_eraseIdx xs j hj
    have h1 : (x :: xs).getD (j + 1) 0 = xs.getD j 0 := rfl
    have h2 : (x :: xs).eraseIdx (j + 1) = x :: xs.eraseIdx j := rfl
    rw [h1, h2]
    exact (ih.cons x).trans (List.Perm.swap _ _ _)

theorem chooseAux_mem {σ : Type} (R : PRNG σ) :
    ∀ (k : Nat) (rem : List Nat) (g : σ) (x : Nat),
      x ∈ (chooseAux R k rem g).1 → x ∈ rem
  | 0, _, _, _ => by simp [chooseAux]
  | _ + 1, [], _, _ => by simp [chooseAux]
  | k + 1, y :: ys, g, x => by
    intro hx
    simp only [chooseAux] at hx
    have hperm := perm_getD_cons_eraseIdx (y :: ys) ((R.next g).1 % (y :: ys).length)
      (Nat.mod_lt _ (by simp))
    rcases List.mem_cons.mp hx with h | h
    · exact h ▸ hperm.mem_iff.mpr (List.mem_cons_self _ _)
    · have hrem := chooseAux_mem R k _ _ x h
      exact hperm.mem_iff.mpr (List.mem_cons_of_mem _ hrem)

theorem chooseAux_nodup {σ : Type} (R : PRNG σ) :
    ∀ (k : Nat) (rem : List Nat) (g : σ), rem.Nodup → (chooseAux R k rem g).1.Nodup
  | 0, _, _, _ => by simp [chooseAux]
  | _ + 1, [], _, _ => by simp [chooseAux]
  | k + 1, y :: ys, g, hnd => by
    simp only [chooseAux, List.nodup_cons]
    have hperm := perm_getD_cons_eraseIdx (y :: ys) ((R.next g).1 % (y :: ys).length)
      (Nat.mod_lt _ (by simp))
    have hnd' := hperm.nodup_iff.mp hnd
    rcases List.nodup_cons.mp hnd' with ⟨hnotmem, hndrest⟩
    refine ⟨fun hmem => hnotmem ?_, chooseAux_nodup R k _ _ hndrest⟩
    exact chooseAux_mem R k _ _ _ hmem

theorem chooseAux_length {σ : Type} (R : PRNG σ) :
    ∀ (k : Nat) (rem : List Nat) (g : σ), k ≤ rem.length →
      (chooseAux R k rem g).1.length = k
  | 0, _, _, _ => by simp [chooseAux]
  | k + 1, [], _, h => by simp at h
  | k + 1, y :: ys, g, h => by
    simp only [chooseAux, List.length_cons]
    have hlt : (R.next g).1 % (y :: ys).length < (y :: ys).length := Nat.mod_lt _ (by simp)
    have hk : k ≤ ((y :: ys).eraseIdx ((R.next g).1 % (y :: ys).length)).length := by
      rw [List.length_eraseIdx]
      simp only [hlt, if_pos]
      simp only [List.length_cons] at h ⊢
      omega
    have := chooseAux_length R k ((y :: ys).eraseIdx ((R.next g).1 % (y :: ys).length))
      (R.next g).2 hk
    simp only [List.length_cons] at this ⊢
    omega

theorem np_choice_nodup {σ : Type} (R : PRNG σ) (n k : Nat) (g : σ) :
    (np_choice R n k g).1.Nodup :=
  chooseAux_nodup R k (List.range n) g (List.nodup_range n)

theorem np_choice_mem {σ : Type} (R : PRNG σ) (n k : Nat) (g : σ) (x : Nat)
    (hx : x ∈ (np_choice R n k g).1) : x < n :=
  List.mem_range.mp (chooseAux_mem R k (List.range n) g x hx)

theorem np_choice_length {σ : Type} (R : PRNG σ) (n k : Nat) (g : σ) (hk : k ≤ n) :
    (np_choice R n k g).1.length = k :=
  chooseAux_length R k (List.range n) g (by simpa using hk)

/-! ### Lemmas about the subsequence search -/

theorem isMatchAt_le {sl l : List Int} {i : Nat} (hne : sl ≠ []) (h : isMatchAt sl l i) :
    i + sl.length ≤ l.length := by
  have hlen := congrArg List.length h
  simp only [List.length_take, List.length_drop] at hlen
  have hi : i ≤ l.length := by
    by_contra hgt
    have : l.drop i = [] := List.drop_eq_nil_of_le (by omega)
    rw [isMatchAt, this] at h
    simp at h
    exact hne h
  omega

theorem getD_eq_headD_drop : ∀ (l : List Int) (i : Nat), l.getD i 0 = (l.drop i).headD 0
  | [], i => by cases i <;> simp
  | _ :: _, 0 => rfl
  | _ :: xs, i + 1 => by simp [getD_eq_headD_drop xs i]

theorem isMatchAt_headD {sl l : List Int} {i : Nat} (hne : sl ≠ []) (h : isMatchAt sl l i) :
    l.getD i 0 = sl.headD 0 := by
  rcases sl with _ | ⟨c, tl⟩
  · exact absurd rfl hne
  rw [getD_eq_headD_drop]
  rcases hdrop : l.drop i with _ | ⟨a, as⟩
  · rw [isMatchAt, hdrop] at h
    simp at h
  · rw [isMatchAt, hdrop] at h
    simp only [List.length_cons, List.take_succ_cons] at h
    have := (List.cons.injEq _ _ _ _).mp h
    simp [hdrop, this.1]

theorem mem_find_sub_list {sl l : List Int} {m : Nat} (hne : sl ≠ []) :
    m ∈ find_sub_list sl l ↔ ∃ i, isMatchAt sl l i ∧ m = i + sl.length - 1 := by
  have hlen : 1 ≤ sl.length := by
    rcases sl with _ | _
    · exact absurd rfl hne
    · simp
  constructor
  · intro hm
    rcases List.mem_filterMap.mp hm with ⟨i, _, hf⟩
    split at hf
    · rename_i hcond
      exact ⟨i, hcond.2, (Option.some.injEq _ _).mp hf |>.symm⟩
    · exact absurd hf (by simp)
  · rintro ⟨i, hi, rfl⟩
    refine List.mem_filterMap.mpr ⟨i, List.mem_range.mpr ?_, ?_⟩
    · have := isMatchAt_le hne hi
      omega
    · rw [if_pos ⟨isMatchAt_headD hne hi, hi⟩]

theorem find_sub_list_pairwise {sl l : List Int} (hne : sl ≠ []) :
    (find_sub_list sl l).Pairwise (· < ·) := by
  have hlen : 1 ≤ sl.length := by
    rcases sl with _ | _
    · exact absurd rfl hne
    · simp
  refine List.Pairwise.filterMap _ ?_ (List.pairwise_lt_range l.length)
  intro a a' hlt b hb b' hb'
  split at hb
  · split at hb'
    · simp only [Option.mem_def, Option.some.injEq] at hb hb'
      omega
    · simp at hb'
  · simp at hb

theorem mem_of_getLast?_eq {l : List Nat} {a : Nat} (h : l.getLast? = some a) : a ∈ l := by
  have hm : a ∈ l.getLast? := by simp [h]
  rcases List.mem_getLast?_eq_getLast hm with ⟨hne, ha⟩
  rw [ha]
  exact List.getLast_mem hne

theorem le_getLast?_of_pairwise :
    ∀ (xs : List Nat), xs.Pairwise (· < ·) → ∀ a ∈ xs, ∀ b, xs.getLast? = some b → a ≤ b
  | [], _, a, ha => by simp at ha
  | x :: rest, hp, a, ha => by
    intro b hb
    rcases List.pairwise_cons.mp hp with ⟨hx, hrest⟩
    rcases rest with _ | ⟨r, rs⟩
    · simp at hb ha
      omega
    · rw [List.getLast?_cons_cons] at hb
      rcases List.mem_cons.mp ha with rfl | hmem
      · have hbmem := mem_of_getLast?_eq hb
        exact le_of_lt (hx b hbmem)
      · exact le_getLast?_of_pairwise (r :: rs) hrest a hmem b hb

/-- C1: in the likelihood classification path, the scoring offset is
located at the last occurrence of the tokenized literal query prompt as a
contiguous subsequence of the full token sequence: when `s` is the last
match start, `find_sub_list` ends with that match's final index
`s + |sl| - 1`, and the candidate's scored tokens are exactly those
strictly after the match (the probabilities from position `s + |sl|` on).
Instantiated at token sequence `[5,6,7,5,6,7,9]` and query tokens
`[5,6,7]` (see the witness), the last match starts at index 3, not 0, and
the scored tokens begin at index 6. -/
theorem find_sub_list_last_match (sl l : List Int) (genProbs : List ℚ) (s : Nat)
    (hne : sl ≠ []) (hs : isMatchAt sl l s) (hlast : ∀ t, isMatchAt sl l t → t ≤ s) :
    (find_sub_list sl l).getLast? = some (s + sl.length - 1) ∧
    candidate_score sl l genProbs = some ((genProbs.drop (s + sl.length)).prod) := by
  have hlen : 1 ≤ sl.length := by
    rcases sl with _ | _
    · exact absurd rfl hne
    · simp
  have hmem : s + sl.length - 1 ∈ find_sub_list sl l :=
    (mem_find_sub_list hne).mpr ⟨s, hs, rfl⟩
  obtain ⟨b, hb⟩ : ∃ b, (find_sub_list sl l).getLast? = some b := by
    cases hl : (find_sub_list sl l).getLast? with
    | none =>
      rw [List.getLast?_eq_none_iff] at hl
      rw [hl] at hmem
      simp at hmem
    | some b => exact ⟨b, rfl⟩
  obtain ⟨i, hi, hbi⟩ := (mem_find_sub_list hne).mp (mem_of_getLast?_eq hb)
  have h2 : s + sl.length - 1 ≤ b :=
    le_getLast?_of_pairwise _ (find_sub_list_pairwise hne) _ hmem _ hb
  have hib := hlast i hi
  have hbeq : b = s + sl.length - 1 := by omega
  subst hbeq
  have harith : s + sl.length - 1 + 1 = s + sl.length := by omega
  refine ⟨hb, ?_⟩
  rw [candidate_score, hb]
  simp [harith]

/-- Witness for C1 at the specification's concrete example: query tokens
`[5,6,7]`, token sequence `[5,6,7,5,6,7,9]`; the last match starts at
index 3 (its final token is at index 5) and the scored probabilities are
those from index 6 on. -/
theorem find_sub_list_last_match_witness :
    (([5, 6, 7] : List Int) ≠ [] ∧ isMatchAt [5, 6, 7] [5, 6, 7, 5, 6, 7, 9] 3 ∧
      (∀ t, isMatchAt [5, 6, 7] [5, 6, 7, 5, 6, 7, 9] t → t ≤ 3)) ∧
    (find_sub_list [5, 6, 7] [5, 6, 7, 5, 6, 7, 9]).getLast? = some 5 ∧
    candidate_score [5, 6, 7] [5, 6, 7, 5, 6, 7, 9] [1, 1, 1, 1, 1, 1, 1/2]
      = some (1/2) := by
  have hlast : ∀ t, isMatchAt [5, 6, 7] [5, 6, 7, 5, 6, 7, 9] t → t ≤ 3 := by
    intro t ht
    have hb : t + 3 ≤ 7 := by simpa using isMatchAt_le (by decide) ht
    have hb2 : t ≤ 4 := by omega
    interval_cases t <;> revert ht <;> decide
  have h := find_sub_list_last_match [5, 6, 7] [5, 6, 7, 5, 6, 7, 9]
    [1, 1, 1, 1, 1, 1, 1/2] 3 (by decide) (by decide) hlast
  refine ⟨⟨by decide, by decide, hlast⟩, ?_, ?_⟩
  · simpa using h.1
  · rw [h.2]
    norm_num [List.prod_cons]

/-- C6: when the tokenized literal query prompt has no occurrence as a
contiguous subsequence of the full tokenized text, `find_sub_list` returns
the empty list and the scoring step produces no joint score — the source
raises `IndexError` at `idxes[-1]`, modelled as `none` — rather than
silently scoring at an undefined offset. -/
theorem no_match_no_score (pt ids : List Int) (genProbs : List ℚ)
    (hne : pt ≠ []) (hno : ∀ i, ¬ isMatchAt pt ids i) :
    find_sub_list pt ids = [] ∧ candidate_score pt ids genProbs = none := by
  have hnil : find_sub_list pt ids = [] := by
    rw [List.eq_nil_iff_forall_not_mem]
    intro m hm
    obtain ⟨i, hi, _⟩ := (mem_find_sub_list hne).mp hm
    exact hno i hi
  refine ⟨hnil, ?_⟩
  rw [candidate_score, hnil]
  rfl

/-- Witness for C6: query tokens `[5,6]` never occur in `[1,2,3]`, the
search returns `[]`, and no joint score is produced. -/
theorem no_match_no_score_witness :
    (([5, 6] : List Int) ≠ [] ∧ (∀ i, ¬ isMatchAt [5, 6] [1, 2, 3] i)) ∧
    find_sub_list [5, 6] [1, 2, 3] = [] ∧
    candidate_score [5, 6] [1, 2, 3] [1/2, 1/3, 1/4] = none := by
  have hno : ∀ i, ¬ isMatchAt [5, 6] [1, 2, 3] i := by
    intro i hi
    have hb : i + 2 ≤ 3 := by simpa using isMatchAt_le (by decide) hi
    have hb2 : i ≤ 1 := by omega
    interval_cases i <;> revert hi <;> decide
  exact ⟨⟨by decide, hno⟩,
    no_match_no_score [5, 6] [1, 2, 3] [1/2, 1/3, 1/4] (by decide) hno⟩

/-- C5: a candidate's joint score is the product of the teacher-forced
conditional probabilities of its scored tokens — per-token probabilities
`[1/2, 2/5]` yield score `1/5` (0.2) — and candidates are ranked by this
score descending: the 0.2-candidate is ranked above the 0.1-candidate, the
ranking lists all candidate indices (a permutation of the score list's
index range) with scores in descending order, and the top-1/top-5 labels
are read off its first entries. -/
theorem joint_score_ranking :
    candidate_score [5, 6, 7] [5, 6, 7, 8, 9] [9/10, 9/10, 9/10, 1/2, 2/5]
      = some (1/5) ∧
    argsortDesc [1/5, 1/10] = [0, 1] ∧
    imagenet_top5 (fun i => if i = 0 then "tiger cat" else "goldfish") [1/5, 1/10]
      = ["tiger cat", "goldfish"] ∧
    (∀ scores : List ℚ,
      ((argsortDesc scores).map fun i => scores.getD i 0).Sorted (fun a b => b ≤ a)) ∧
    (∀ scores : List ℚ, (argsortDesc scores).Perm (List.range scores.length)) := by
  have hr : List.range 2 = [0, 1] := by decide
  have hargsort : argsortDesc [1/5, 1/10] = [0, 1] := by
    norm_num [argsortDesc, argsortAsc, hr, List.insertionSort, List.orderedInsert]
  have hf : find_sub_list [5, 6, 7] [5, 6, 7, 8, 9] = [2] := by decide
  refine ⟨?_, hargsort, ?_, ?_, ?_⟩
  · norm_num [candidate_score, hf, List.prod_cons]
  · simp only [imagenet_top5]
    rw [hargsort]
    simp
  · intro scores
    haveI : IsTotal Nat (fun i j => scores.getD i 0 ≤ scores.getD j 0) :=
      ⟨fun a b => le_total _ _⟩
    haveI : IsTrans Nat (fun i j => scores.getD i 0 ≤ scores.getD j 0) :=
      ⟨fun a b c hab hbc => le_trans hab hbc⟩
    have h := List.sorted_insertionSort (fun i j => scores.getD i 0 ≤ scores.getD j 0)
      (List.range scores.length)
    simp only [argsortDesc, argsortAsc, List.Sorted] at h ⊢
    rw [List.pairwise_map, List.pairwise_reverse]
    exact h
  · intro scores
    simp only [argsortDesc, argsortAsc]
    exact (List.reverse_perm _).trans
      (List.perm_insertionSort (fun i j => scores.getD i 0 ≤ scores.getD j 0)
        (List.range scores.length))

theorem imagenet_loop_eq_count {σ : Type} (R : PRNG σ)
    (oracle : List Nat → String → List String) (trainLen effShots numSamples : Nat) :
    ∀ (val : List String) (i acc1 acc5 : Nat) (g : σ), i < numSamples →
      (imagenet_loop R oracle trainLen effShots numSamples val i acc1 acc5 g).1
        = acc1 + count_correct R oracle trainLen effShots
            (val.take (numSamples - i)) g
  | [], i, acc1, acc5, g, h => by simp [imagenet_loop, count_correct]
  | item :: rest, i, acc1, acc5, g, h => by
    simp only [imagenet_loop]
    by_cases hstop : numSamples ≤ i + 1
    · rw [if_pos hstop]
      have hns : numSamples - i = 1 := by omega
      rw [hns]
      by_cases hc : (oracle (np_choice R trainLen effShots g).1 item).head? = some item <;>
        simp [count_correct, hc]
    · rw [if_neg hstop]
      have hlt : i + 1 < numSamples := by omega
      rw [imagenet_loop_eq_count R oracle trainLen effShots numSamples rest
        (i + 1) _ _ _ hlt]
      have hns : numSamples - i = (numSamples - (i + 1)) + 1 := by omega
      rw [hns]
      by_cases hc : (oracle (np_choice R trainLen effShots g).1 item).head? = some item <;>
        simp [count_correct, hc, List.take_succ_cons] <;> omega

/-- C2 (amended): for every classification evaluation run with a positive
sample budget, the returned top-1 accuracy is the number of correct items
among the first `min(|val|, num_samples)` processed items divided by the
configured budget `num_samples` — the denominator is the budget even when
the dataset is smaller than the budget. -/
theorem imagenet_accuracy_denominator {σ : Type} (R : PRNG σ)
    (oracle : List Nat → String → List String) (batch_size trainLen : Nat)
    (val : List String) (seed num_samples num_shots : Nat) (g : σ)
    (h : 1 ≤ num_samples) :
    evaluate_imagenet R oracle batch_size trainLen val seed num_samples num_shots g
      = some ((count_correct R oracle trainLen (if 0 < num_shots then num_shots else 2)
          (val.take num_samples) g : ℚ) / (num_samples : ℚ)) := by
  have hns : num_samples ≠ 0 := by omega
  simp only [evaluate_imagenet, if_neg hns]
  rw [imagenet_loop_eq_count R oracle trainLen _ num_samples val 0 0 0 g (by omega)]
  simp

/-- Witness for C2 (amended) at a concrete run: one validation item,
budget 5, zero requested shots (effective shot count 2). -/
theorem imagenet_accuracy_denominator_witness :
    1 ≤ 5 ∧
    evaluate_imagenet lcg (fun _ s => [s]) 8 10 ["cat"] 42 5 0 0
      = some ((count_correct lcg (fun _ s => [s]) 10 2 (["cat"].take 5) 0 : ℚ)
          / (5 : ℚ)) := by
  refine ⟨by norm_num, ?_⟩
  have h := imagenet_accuracy_denominator lcg (fun _ s => [s]) 8 10 ["cat"] 42 5 0 0
    (by norm_num)
  simpa using h

/-- Counterexample to C2 as stated: with dataset `["cat"]` (one item),
budget `num_samples = 5` and a model that always ranks the true class
first, the run processes one item and returns `1/5`; the claim's clause
"unless the dataset is smaller than the budget, in which case the
denominator is the number actually processed" predicts `1/1`. -/
theorem imagenet_denominator_counterexample :
    evaluate_imagenet lcg (fun _ s => [s]) 8 10 ["cat"] 42 5 0 0 = some (1/5) ∧
    ((1 : ℚ)/5 ≠ 1/1) := by
  constructor
  · norm_num [evaluate_imagenet, imagenet_loop]
  · norm_num

/-- C10: `evaluate_imagenet` accepts a `seed` parameter but never consults
it: for any two seed values, identical remaining inputs and an identical
entry state of the process-wide random source, the sampling and the
returned result are identical. -/
theorem imagenet_seed_unused {σ : Type} (R : PRNG σ)
    (oracle : List Nat → String → List String) (batch_size trainLen : Nat)
    (val : List String) (seed1 seed2 num_samples num_shots : Nat) (g : σ) :
    evaluate_imagenet R oracle batch_size trainLen val seed1 num_samples num_shots g
      = evaluate_imagenet R oracle batch_size trainLen val seed2 num_samples num_shots g :=
  rfl

/-- C7: the subset samplers re-seed the pseudo-random generator with the
given seed immediately before the draw, so two calls with identical
arguments return identical index sequences regardless of the prior global
random state (for every generator implementation). -/
theorem sampler_reseed_determinism {σ : Type} (R : PRNG σ) (n k s : Nat) (g1 g2 : σ) :
    (get_query_set R n k s g1).1 = (get_query_set R n k s g2).1 ∧
    (prepare_eval_samples R n k s g1).1 = (prepare_eval_samples R n k s g2).1 :=
  ⟨rfl, rfl⟩

/-- Counterexample to C8: drawn from the same dataset (size 2) with the
same seed, the query pool and the evaluation subset coincide — both
restart the generator from the same seed state — hence they share an
index instead of being disjoint. -/
theorem same_dataset_draws_share_index :
    (get_query_set lcg 2 1 0 0).1 = (prepare_eval_samples lcg 2 1 0 0).1 ∧
    ∃ x ∈ (get_query_set lcg 2 1 0 0).1, x ∈ (prepare_eval_samples lcg 2 1 0 0).1 := by
  constructor
  · rfl
  · decide

/-- C8 (amended): the query pool and the evaluation subset are each drawn
without replacement — distinct indices inside the dataset, of the
requested size when it fits — but the two draws from the same dataset with
the same seed restart the identical reseeded stream and coincide, so they
are not disjoint. -/
theorem subset_draw_properties {σ : Type} (R : PRNG σ) (n k s : Nat) (g : σ)
    (hk : k ≤ n) :
    (get_query_set R n k s g).1 = (prepare_eval_samples R n k s g).1 ∧
    (get_query_set R n k s g).1.Nodup ∧
    (get_query_set R n k s g).1.all (fun x => decide (x < n)) = true ∧
    (get_query_set R n k s g).1.length = k := by
  refine ⟨rfl, np_choice_nodup R n k _, ?_, np_choice_length R n k _ hk⟩
  rw [List.all_eq_true]
  intro x hx
  exact decide_eq_true (np_choice_mem R n k _ x hx)

/-- Witness for C8 (amended): dataset size 3, draw size 2, seed 0. -/
theorem subset_draw_properties_witness :
    2 ≤ 3 ∧
    ((get_query_set lcg 3 2 0 0).1 = (prepare_eval_samples lcg 3 2 0 0).1 ∧
      (get_query_set lcg 3 2 0 0).1.Nodup ∧
      (get_query_set lcg 3 2 0 0).1.all (fun x => decide (x < 3)) = true ∧
      (get_query_set lcg 3 2 0 0).1.length = 2) :=
  ⟨by decide, subset_draw_properties lcg 3 2 0 0 (by decide)⟩

theorem randint_draws_length {σ : Type} (R : PRNG σ) :
    ∀ (n : Nat) (g : σ), (randint_draws R n g).1.length = n
  | 0, _ => rfl
  | n + 1, g => by simp [randint_draws, randint_draws_length R n]

theorem map_fst_zip_take {α β : Type} :
    ∀ (l1 : List α) (l2 : List β), (l1.zip l2).map Prod.fst = l1.take l2.length
  | [], _ => by simp
  | _ :: _, [] => by simp
  | x :: xs, y :: ys => by simp [map_fst_zip_take xs ys]

/-- C9: a trial-seed list shorter than the requested trial count is
extended with freshly generated seeds to exactly the requested length,
the provided seeds staying unchanged in place, and the extension is
reported (flag `true`); the orchestrator then runs, per shot count,
exactly `min(number of seeds, requested trial count)` trials by zipping
seeds against the trial counter — for the extended list that is exactly
the trial count, and seeds beyond the trial count are ignored. -/
theorem trial_seed_extension {σ : Type} (R : PRNG σ) (seeds : List Nat)
    (numTrials : Nat) (g : σ) (h : seeds.length < numTrials) :
    (extend_trial_seeds R seeds numTrials g).1.1.length = numTrials ∧
    (extend_trial_seeds R seeds numTrials g).1.1.take seeds.length = seeds ∧
    (extend_trial_seeds R seeds numTrials g).1.2 = true ∧
    (trial_pairs (extend_trial_seeds R seeds numTrials g).1.1 numTrials).length
      = numTrials ∧
    (∀ ss : List Nat, (trial_pairs ss numTrials).length = min ss.length numTrials) ∧
    (∀ ss : List Nat, (trial_pairs ss numTrials).map Prod.fst = ss.take numTrials) := by
  have hlenzip : ∀ ss : List Nat,
      (trial_pairs ss numTrials).length = min ss.length numTrials := by
    intro ss
    simp [trial_pairs]
  have hmap : ∀ ss : List Nat,
      (trial_pairs ss numTrials).map Prod.fst = ss.take numTrials := by
    intro ss
    rw [trial_pairs, map_fst_zip_take ss (List.range numTrials), List.length_range]
  have hext : (extend_trial_seeds R seeds numTrials g).1.1
      = seeds ++ (randint_draws R (numTrials - seeds.length) g).1 := by
    simp [extend_trial_seeds, if_pos h]
  have hlen : (extend_trial_seeds R seeds numTrials g).1.1.length = numTrials := by
    rw [hext]
    simp [randint_draws_length]
    omega
  refine ⟨hlen, ?_, ?_, ?_, hlenzip, hmap⟩
  · rw [hext]
    exact List.take_left seeds _
  · simp [extend_trial_seeds, if_pos h]
  · rw [hlenzip, hlen]
    omega

/-- Witness for C9 at the specification's example: one provided seed and
three requested trials give a final list of length 3 whose first element
is the unchanged seed 42, with the extension reported. -/
theorem trial_seed_extension_witness :
    ([42] : List Nat).length < 3 ∧
    ((extend_trial_seeds lcg [42] 3 0).1.1.length = 3 ∧
      (extend_trial_seeds lcg [42] 3 0).1.1.take ([42] : List Nat).length = [42] ∧
      (extend_trial_seeds lcg [42] 3 0).1.2 = true) :=
  ⟨by decide,
    ⟨(trial_seed_extension lcg [42] 3 0 (by decide)).1,
     (trial_seed_extension lcg [42] 3 0 (by decide)).2.1,
     (trial_seed_extension lcg [42] 3 0 (by decide)).2.2.1⟩⟩

theorem dictInsert_keys_present {m : List (Nat × String)} {k : Nat} {v : String}
    (h : m.any (fun p => decide (p.1 = k)) = true) :
    (dictInsert m k v).map Prod.fst = m.map Prod.fst := by
  rw [dictInsert, if_pos h, List.map_map]
  refine List.map_congr_left ?_
  intro p _
  by_cases hp : p.1 = k
  · simp [hp]
  · simp [hp]

theorem dictInsert_keys_absent {m : List (Nat × String)} {k : Nat} {v : String}
    (h : ¬ m.any (fun p => decide (p.1 = k)) = true) :
    (dictInsert m k v).map Prod.fst = m.map Prod.fst ++ [k] := by
  rw [dictInsert, if_neg h]
  simp

theorem dictInsert_keys_nodup {m : List (Nat × String)} {k : Nat} {v : String}
    (h : (m.map Prod.fst).Nodup) : ((dictInsert m k v).map Prod.fst).Nodup := by
  by_cases hany : m.any (fun p => decide (p.1 = k)) = true
  · rw [dictInsert_keys_present hany]
    exact h
  · rw [dictInsert_keys_absent hany]
    rw [List.nodup_append]
    refine ⟨h, List.nodup_singleton k, ?_⟩
    intro x hx hk
    rcases List.mem_map.mp hx with ⟨p, hp, rfl⟩
    rw [List.mem_singleton] at hk
    rw [List.any_eq_true] at hany
    exact hany ⟨p, hp, by simp [hk]⟩

theorem find?_map_update : ∀ (m : List (Nat × String)) (k : Nat) (v : String),
    m.any (fun p => decide (p.1 = k)) = true →
    (m.map (fun p => if p.1 = k then (k, v) else p)).find? (fun p => decide (p.1 = k))
      = some (k, v)
  | [], k, v, h => by simp at h
  | p :: m, k, v, h => by
    by_cases hp : p.1 = k
    · simp [List.find?_cons, hp]
    · have hany : m.any (fun p => decide (p.1 = k)) = true := by
        rw [List.any_cons] at h
        simpa [hp] using h
      simp only [List.map_cons, if_neg hp]
      rw [List.find?_cons]
      simp [hp, find?_map_update m k v hany]

theorem dictGet_dictInsert_self (m : List (Nat × String)) (k : Nat) (v : String) :
    dictGet (dictInsert m k v) k = some v := by
  rw [dictInsert]
  by_cases hany : m.any (fun p => decide (p.1 = k)) = true
  · rw [if_pos hany, dictGet, find?_map_update m k v hany]
    rfl
  · rw [if_neg hany, dictGet, List.find?_append]
    have hnone : m.find? (fun p => decide (p.1 = k)) = none := by
      rw [List.find?_eq_none]
      intro p hp hpk
      rw [List.any_eq_true] at hany
      exact hany ⟨p, hp, hpk⟩
    rw [hnone]
    simp

theorem find?_map_update_ne : ∀ (m : List (Nat × String)) (k1 k : Nat) (v : String),
    k1 ≠ k →
    (m.map (fun p => if p.1 = k1 then (k1, v) else p)).find? (fun p => decide (p.1 = k))
      = m.find? (fun p => decide (p.1 = k))
  | [], _, _, _, _ => rfl
  | p :: m, k1, k, v, h => by
    by_cases hp : p.1 = k1
    · have hpk : ¬ p.1 = k := by rw [hp]; exact h
      simp only [List.map_cons, if_pos hp]
      rw [List.find?_cons, List.find?_cons]
      simp [h, hpk, find?_map_update_ne m k1 k v h]
    · simp only [List.map_cons, if_neg hp]
      rw [List.find?_cons, List.find?_cons]
      by_cases hpk : p.1 = k
      · simp [hpk]
      · simp [hpk, find?_map_update_ne m k1 k v h]

theorem dictGet_dictInsert_ne (m : List (Nat × String)) (k1 k : Nat) (v : String)
    (h : k1 ≠ k) : dictGet (dictInsert m k1 v) k = dictGet m k := by
  rw [dictInsert]
  by_cases hany : m.any (fun p => decide (p.1 = k1)) = true
  · rw [if_pos hany, dictGet, find?_map_update_ne m k1 k v h]
    rfl
  · rw [if_neg hany, dictGet, List.find?_append]
    have hnone : List.find? (fun p => decide (p.1 = k)) [(k1, v)] = none := by
      simp [List.find?_cons, h]
    rw [hnone]
    simp [dictGet]

theorem foldl_dictInsert_keys_nodup :
    ∀ (samples : List (Nat × String)) (m : List (Nat × String)),
      (m.map Prod.fst).Nodup →
      ((samples.foldl (fun m s => dictInsert m s.1 s.2) m).map Prod.fst).Nodup
  | [], _, h => h
  | s :: rest, m, h =>
    foldl_dictInsert_keys_nodup rest (dictInsert m s.1 s.2) (dictInsert_keys_nodup h)

theorem foldl_dictInsert_get :
    ∀ (samples : List (Nat × String)) (m : List (Nat × String)) (k : Nat),
      dictGet (samples.foldl (fun m s => dictInsert m s.1 s.2) m) k
        = (((samples.filter (fun s => decide (s.1 = k))).getLast?.map Prod.snd).or
            (dictGet m k))
  | [], m, k => by simp
  | s :: rest, m, k => by
    rw [List.foldl_cons, foldl_dictInsert_get rest (dictInsert m s.1 s.2) k]
    by_cases hs : s.1 = k
    · subst hs
      rw [List.filter_cons_of_pos (by simp)]
      cases hrest : rest.filter (fun t => decide (t.1 = s.1)) with
      | nil =>
        simp only [List.getLast?_nil, Option.map_none', Option.none_or]
        have hsingle : ([s] : List (Nat × String)).getLast? = some s := rfl
        rw [hsingle]
        simp only [Option.map_some']
        rw [dictGet_dictInsert_self m s.1 s.2]
        rfl
      | cons t ts =>
        obtain ⟨b, hb⟩ : ∃ b, (t :: ts).getLast? = some b := by
          cases hl : (t :: ts).getLast? with
          | none =>
            rw [List.getLast?_eq_none_iff] at hl
            simp at hl
          | some b => exact ⟨b, rfl⟩
        rw [List.getLast?_cons_cons, hb]
        simp only [Option.map_some']
        rfl
    · rw [List.filter_cons_of_neg (by simp [hs])]
      rw [dictGet_dictInsert_ne m s.1 k s.2 hs]

theorem foldl_append_eq_join {α : Type} :
    ∀ (batches : List (List α)) (init : List α),
      batches.foldl (fun a b => a ++ b) init = init ++ batches.flatten
  | [], init => by simp
  | b :: bs, init => by
    rw [List.foldl_cons, foldl_append_eq_join bs (init ++ b)]
    simp

theorem captioning_predictions_eq_join (batches : List (List (Nat × String))) :
    captioning_predictions batches
      = batches.flatten.foldl (fun m s => dictInsert m s.1 s.2) [] := by
  rw [captioning_predictions]
  generalize ([] : List (Nat × String)) = init
  induction batches generalizing init with
  | nil => simp
  | cons b bs ih =>
    rw [List.foldl_cons, ih, List.flatten_cons, List.foldl_append]

/-- C4 (amended): within one generation-evaluation run the captioning
Prediction Records form a dict keyed by image id with last-write-wins
semantics — the materialized keys are unique and each key holds the value
of its last write; the VQA Prediction Records are instead appended to a
list in batch order, so a duplicate identifier from a later batch yields
an additional record (earlier entries are not overwritten, and keys need
not be unique — see the counterexample). -/
theorem prediction_record_semantics (batches : List (List (Nat × String))) (k : Nat)
    (qbatches : List (List (String × Nat))) :
    ((captioning_predictions batches).map Prod.fst).Nodup ∧
    dictGet (captioning_predictions batches) k
      = (batches.flatten.filter (fun s => decide (s.1 = k))).getLast?.map Prod.snd ∧
    vqa_predictions qbatches = qbatches.flatten := by
  refine ⟨?_, ?_, ?_⟩
  · rw [captioning_predictions_eq_join]
    exact foldl_dictInsert_keys_nodup batches.flatten [] (by simp)
  · rw [captioning_predictions_eq_join, foldl_dictInsert_get]
    simp [dictGet]
  · rw [vqa_predictions, foldl_append_eq_join]
    simp

/-- Counterexample to C4 as stated: in a VQA generation run, two batches
carrying the same question id 7 materialize as two records with key 7 —
the earlier record survives and the keys are not unique. -/
theorem vqa_duplicate_keys_counterexample :
    vqa_predictions [[("a", 7)], [("b", 7)]] = [("a", 7), ("b", 7)] ∧
    ¬ ((vqa_predictions [[("a", 7)], [("b", 7)]]).map Prod.snd).Nodup := by
  constructor
  · rfl
  · decide

/-! ### Unfolding equations for `stripSub` -/

theorem stripSubFuel_congr (pat : List Char) :
    ∀ (f1 f2 : Nat) (s : List Char), s.length ≤ f1 → s.length ≤ f2 →
      stripSubFuel pat f1 s = stripSubFuel pat f2 s
  | 0, f2, s, h1, _ => by
    have hs : s = [] := List.eq_nil_of_length_eq_zero (by omega)
    subst hs
    cases f2 <;> rfl
  | f + 1, 0, s, _, h2 => by
    have hs : s = [] := List.eq_nil_of_length_eq_zero (by omega)
    subst hs
    rfl
  | f + 1, f2 + 1, [], _, _ => rfl
  | f + 1, f2 + 1, c :: rest, h1, h2 => by
    rw [stripSubFuel, stripSubFuel]
    split
    · rename_i hcond
      have hpat : 1 ≤ pat.length := List.length_pos.mpr hcond.1
      have hlen : ((c :: rest).drop pat.length).length ≤ f := by
        rw [List.length_drop]
        simp only [List.length_cons] at h1 ⊢
        omega
      have hlen2 : ((c :: rest).drop pat.length).length ≤ f2 := by
        rw [List.length_drop]
        simp only [List.length_cons] at h2 ⊢
        omega
      exact stripSubFuel_congr pat f f2 _ hlen hlen2
    · have hr1 : rest.length ≤ f := by
        simp only [List.length_cons] at h1
        omega
      have hr2 : rest.length ≤ f2 := by
        simp only [List.length_cons] at h2
        omega
      rw [stripSubFuel_congr pat f f2 rest hr1 hr2]

theorem stripSub_nil (pat : List Char) : stripSub pat [] = [] := rfl

theorem stripSub_cons (pat : List Char) (c : Char) (rest : List Char) :
    stripSub pat (c :: rest)
      = if pat ≠ [] ∧ pat.isPrefixOf (c :: rest) then
          stripSub pat ((c :: rest).drop pat.length)
        else c :: stripSub pat rest := by
  rw [stripSub, List.length_cons, stripSubFuel]
  split
  · rename_i hcond
    have hpat : 1 ≤ pat.length := List.length_pos.mpr hcond.1
    rw [stripSub]
    refine stripSubFuel_congr pat rest.length _ _ ?_ le_rfl
    rw [List.length_drop]
    simp only [List.length_cons]
    omega
  · rw [stripSub]

theorem bor_elim {a b : Bool} (h : (a || b) = true) : a = true ∨ b = true := by
  cases a
  · right
    simpa using h
  · left
    rfl

theorem invB_tail {c : Char} {rest : List Char} (h : invB (c :: rest) = true) :
    invB rest = true := by
  rw [invB, Bool.and_eq_true] at h
  exact h.2

theorem outB_tail {c : Char} {rest : List Char} (h : outB (c :: rest) = true) :
    outB rest = true := by
  rw [outB, Bool.and_eq_true] at h
  exact h.2

theorem isPrefixOf_append_right : ∀ {p l : List Char} (b : List Char),
    p.isPrefixOf l = true → p.isPrefixOf (l ++ b) = true
  | [], _, _, _ => by simp [List.isPrefixOf]
  | _ :: _, [], _, h => by simp [List.isPrefixOf] at h
  | _ :: ps, x :: xs, b, h => by
    simp only [List.isPrefixOf, Bool.and_eq_true] at h
    simp only [List.cons_append, List.isPrefixOf, Bool.and_eq_true]
    exact ⟨h.1, isPrefixOf_append_right b h.2⟩

theorem isPrefixOf_self_append : ∀ (p b : List Char), p.isPrefixOf (p ++ b) = true
  | [], _ => by simp [List.isPrefixOf]
  | c :: ps, b => by
    simp only [List.cons_append, List.isPrefixOf, Bool.and_eq_true]
    exact ⟨by simp, isPrefixOf_self_append ps b⟩

theorem invB_append : ∀ {a : List Char} (b : List Char),
    invB a = true → invB b = true → invB (a ++ b) = true
  | [], _, _, hb => hb
  | c :: a, b, ha, hb => by
    have ht := invB_tail ha
    rw [invB, Bool.and_eq_true] at ha
    rw [List.cons_append, invB, Bool.and_eq_true]
    refine ⟨?_, invB_append b ht hb⟩
    rcases bor_elim ha.1 with h1 | h1
    · rcases bor_elim h1 with h2 | h2
      · simp [h2]
      · have h3 := isPrefixOf_append_right b h2
        rw [List.cons_append] at h3
        simp [h3]
    · have h3 := isPrefixOf_append_right b h1
      rw [List.cons_append] at h3
      simp [h3]

theorem outB_append : ∀ {a : List Char} (b : List Char),
    outB a = true → outB b = true → outB (a ++ b) = true
  | [], _, _, hb => hb
  | c :: a, b, ha, hb => by
    have ht := outB_tail ha
    rw [outB, Bool.and_eq_true] at ha
    rw [List.cons_append, outB, Bool.and_eq_true]
    refine ⟨?_, outB_append b ht hb⟩
    rcases bor_elim ha.1 with h1 | h1
    · simp [h1]
    · have h3 := isPrefixOf_append_right b h1
      rw [List.cons_append] at h3
      simp [h3]

theorem invB_drop : ∀ (n : Nat) (s : List Char), invB s = true → invB (s.drop n) = true
  | 0, _, h => h
  | _ + 1, [], h => h
  | n + 1, _ :: rest, h => invB_drop n rest (invB_tail h)

theorem invB_of_outB : ∀ (s : List Char), outB s = true → invB s = true
  | [], _ => rfl
  | _ :: rest, h => by
    have ht := outB_tail h
    rw [outB, Bool.and_eq_true] at h
    rw [invB, Bool.and_eq_true]
    refine ⟨?_, invB_of_outB rest ht⟩
    rcases bor_elim h.1 with h1 | h1
    · simp [h1]
    · simp [h1]

theorem outB_of_no_lt : ∀ (s : List Char), (∀ ch ∈ s, ch ≠ '<') → outB s = true
  | [], _ => rfl
  | c :: rest, h => by
    rw [outB, Bool.and_eq_true]
    refine ⟨?_, outB_of_no_lt rest (fun ch hch => h ch (List.mem_cons_of_mem c hch))⟩
    have hc := h c (List.mem_cons_self c rest)
    simp [hc]

theorem ltBar_shape {c : Char} {rest : List Char}
    (h : (['<', '|'] : List Char).isPrefixOf (c :: rest) = true) :
    c = '<' ∧ ∃ tl, rest = '|' :: tl := by
  cases rest with
  | nil => simp [List.isPrefixOf] at h
  | cons d tl =>
    simp only [List.isPrefixOf, Bool.and_eq_true, beq_iff_eq] at h
    exact ⟨h.1.symm, tl, by rw [← h.2.1]⟩

theorem imgTag_not_prefix_of_head (c : Char) (t q : List Char)
    (h : (decide (c ≠ '<') || (['<', '|'] : List Char).isPrefixOf (c :: t)) = true) :
    imgTag.isPrefixOf (c :: (t ++ q)) = false := by
  rcases bor_elim h with h1 | h1
  · have hc : c ≠ '<' := of_decide_eq_true h1
    cases hh : imgTag.isPrefixOf (c :: (t ++ q)) with
    | false => rfl
    | true =>
      simp only [imgTag, List.isPrefixOf, Bool.and_eq_true, beq_iff_eq] at hh
      exact absurd hh.1.symm hc
  · obtain ⟨rfl, tl, rfl⟩ := ltBar_shape h1
    simp only [List.cons_append]
    simp [imgTag, List.isPrefixOf]

theorem outB_stripSub : ∀ (s : List Char), invB s = true → outB (stripSub imgTag s) = true
  | [], _ => rfl
  | c :: rest, h => by
    rw [stripSub_cons]
    split
    · exact outB_stripSub ((c :: rest).drop imgTag.length) (invB_drop _ _ h)
    · rename_i hcond
      have ht := invB_tail h
      have hout := outB_stripSub rest ht
      rw [outB, Bool.and_eq_true]
      refine ⟨?_, hout⟩
      by_cases hc : c = '<'
      · subst hc
        rw [invB, Bool.and_eq_true] at h
        have h1 := h.1
        have hd : decide (('<' : Char) ≠ '<') = false := by decide
        have hnp : imgTag.isPrefixOf ('<' :: rest) = false := by
          cases hpp : imgTag.isPrefixOf ('<' :: rest) with
          | false => rfl
          | true => exact absurd ⟨by decide, hpp⟩ hcond
        rw [hd, hnp] at h1
        simp only [Bool.false_or] at h1
        obtain ⟨-, tl, rfl⟩ := ltBar_shape h1
        rw [stripSub_cons]
        have hnp2 : ¬ ((imgTag : List Char) ≠ [] ∧
            imgTag.isPrefixOf ('|' :: tl) = true) := by
          intro hcon
          have := hcon.2
          simp [imgTag, List.isPrefixOf] at this
        rw [if_neg hnp2]
        simp [List.isPrefixOf]
      · simp [hc]
  termination_by s => s.length
  decreasing_by
    all_goals simp only [List.length_drop, List.length_cons]
    all_goals have hlen7 : (imgTag : List Char).length = 7 := rfl
    all_goals omega

theorem countSub_append_of_outB : ∀ (t q : List Char), outB t = true →
    countSub imgTag (t ++ q) = countSub imgTag q
  | [], _, _ => rfl
  | c :: t, q, h => by
    have ht := outB_tail h
    rw [outB, Bool.and_eq_true] at h
    rw [List.cons_append, countSub]
    rw [imgTag_not_prefix_of_head c t q h.1]
    simp [countSub_append_of_outB t q ht]

theorem stripSub_append_of_outB : ∀ (t q : List Char), outB t = true →
    stripSub imgTag (t ++ q) = t ++ stripSub imgTag q
  | [], _, _ => rfl
  | c :: t, q, h => by
    have ht := outB_tail h
    rw [outB, Bool.and_eq_true] at h
    rw [List.cons_append, stripSub_cons]
    have hnp := imgTag_not_prefix_of_head c t q h.1
    rw [if_neg (by simp [hnp])]
    rw [stripSub_append_of_outB t q ht]
    rfl

theorem stripSub_imgTag_append (x : List Char) :
    stripSub imgTag (imgTag ++ x) = stripSub imgTag x := by
  have hpre : imgTag.isPrefixOf (imgTag ++ x) = true := isPrefixOf_self_append imgTag x
  have h : imgTag ++ x = '<' :: (['i', 'm', 'a', 'g', 'e', '>'] ++ x) := rfl
  rw [h] at hpre
  rw [h, stripSub_cons, if_pos ⟨by decide, hpre⟩]
  rfl

theorem outB_demo_tail (cap : List Char) (hcap : ∀ ch ∈ cap, ch ≠ '<') :
    outB (outputColon ++ (cap ++ endChunk)) = true :=
  outB_append _ (by decide) (outB_append _ (outB_of_no_lt cap hcap) (by decide))

theorem invB_caption_prompt (cap : List Char) (hcap : ∀ ch ∈ cap, ch ≠ '<') :
    invB (caption_prompt (some cap)) = true := by
  rw [caption_prompt]
  exact invB_append _ (by decide) (invB_of_outB _ (outB_demo_tail cap hcap))

theorem invB_context : ∀ (demos : List DemoSample),
    (∀ d ∈ demos, ∀ ch ∈ pyStrip d.caption, ch ≠ '<') →
    invB (captioning_context_text demos) = true
  | [], _ => rfl
  | d :: ds, hcap => by
    rw [captioning_context_text, List.map_cons, List.flatten_cons]
    refine invB_append _
      (invB_caption_prompt _ (hcap d (List.mem_cons_self d ds))) ?_
    exact invB_context ds (fun d' hd' => hcap d' (List.mem_cons_of_mem d hd'))

theorem stripSub_context : ∀ (demos : List DemoSample),
    (∀ d ∈ demos, ∀ ch ∈ pyStrip d.caption, ch ≠ '<') →
    stripSub imgTag (captioning_context_text demos)
      = (demos.map fun d => outputColon ++ (pyStrip d.caption ++ endChunk)).flatten
  | [], _ => rfl
  | d :: ds, hcap => by
    rw [captioning_context_text, List.map_cons, List.flatten_cons, List.map_cons,
      List.flatten_cons, caption_prompt, List.append_assoc, stripSub_imgTag_append]
    rw [stripSub_append_of_outB _ _
      (outB_demo_tail (pyStrip d.caption) (hcap d (List.mem_cons_self d ds)))]
    rw [show (List.map (fun d => caption_prompt (some (pyStrip d.caption))) ds).flatten
      = captioning_context_text ds from rfl]
    rw [stripSub_context ds (fun d' hd' => hcap d' (List.mem_cons_of_mem d hd'))]

/-- C3 (amended): assembling a captioning Prompt with originally requested
shot count 0 yields an image sequence of length 1 holding only the query
image; every image-placeholder token is stripped from the concatenated
demonstration text, which still carries each demonstration's reference
text and end-of-example marker; the appended query template keeps its own
placeholder, so the full text sequence contains exactly one
image-placeholder occurrence (the query's), not zero. -/
theorem zero_shot_prompt (demos : List DemoSample) (queryImage : Nat)
    (hcap : ∀ d ∈ demos, ∀ ch ∈ pyStrip d.caption, ch ≠ '<') :
    captioning_prompt_images 0 demos queryImage = [queryImage] ∧
    (captioning_prompt_images 0 demos queryImage).length = 1 ∧
    stripSub imgTag (captioning_context_text demos)
      = (demos.map fun d => outputColon ++ (pyStrip d.caption ++ endChunk)).flatten ∧
    countSub imgTag (captioning_prompt_text 0 demos) = 1 := by
  refine ⟨by simp [captioning_prompt_images], by simp [captioning_prompt_images],
    stripSub_context demos hcap, ?_⟩
  rw [captioning_prompt_text, if_pos rfl]
  rw [countSub_append_of_outB _ _ (outB_stripSub _ (invB_context demos hcap))]
  decide

/-- Witness for C3 (amended): two concrete demonstrations with captions
"a cat" and "a dog", query image 9. -/
theorem zero_shot_prompt_witness :
    (∀ d ∈ [DemoSample.mk 0 ['a', ' ', 'c', 'a', 't'],
            DemoSample.mk 1 ['a', ' ', 'd', 'o', 'g']],
      ∀ ch ∈ pyStrip d.caption, ch ≠ '<') ∧
    (captioning_prompt_images 0 [DemoSample.mk 0 ['a', ' ', 'c', 'a', 't'],
        DemoSample.mk 1 ['a', ' ', 'd', 'o', 'g']] 9 = [9] ∧
      (captioning_prompt_images 0 [DemoSample.mk 0 ['a', ' ', 'c', 'a', 't'],
        DemoSample.mk 1 ['a', ' ', 'd', 'o', 'g']] 9).length = 1 ∧
      stripSub imgTag (captioning_context_text [DemoSample.mk 0 ['a', ' ', 'c', 'a', 't'],
        DemoSample.mk 1 ['a', ' ', 'd', 'o', 'g']])
        = ([DemoSample.mk 0 ['a', ' ', 'c', 'a', 't'],
            DemoSample.mk 1 ['a', ' ', 'd', 'o', 'g']].map
            fun d => outputColon ++ (pyStrip d.caption ++ endChunk)).flatten ∧
      countSub imgTag (captioning_prompt_text 0
        [DemoSample.mk 0 ['a', ' ', 'c', 'a', 't'],
         DemoSample.mk 1 ['a', ' ', 'd', 'o', 'g']]) = 1) :=
  ⟨by decide,
    zero_shot_prompt [DemoSample.mk 0 ['a', ' ', 'c', 'a', 't'],
      DemoSample.mk 1 ['a', ' ', 'd', 'o', 'g']] 9 (by decide)⟩

/-- Counterexample to C3 as stated: with requested shot count 0 and two
concrete demonstrations, the assembled text sequence contains exactly one
image-placeholder occurrence (the appended query template's) — not
zero. -/
theorem zero_shot_placeholder_counterexample :
    countSub imgTag (captioning_prompt_text 0
      [DemoSample.mk 0 ['a', ' ', 'c', 'a', 't'],
       DemoSample.mk 1 ['a', ' ', 'd', 'o', 'g']]) = 1 ∧
    countSub imgTag (captioning_prompt_text 0
      [DemoSample.mk 0 ['a', ' ', 'c', 'a', 't'],
       DemoSample.mk 1 ['a', ' ', 'd', 'o', 'g']]) ≠ 0 := by
  constructor
  · decide
  · decide

end OpenFlamingoEval
